import Mathlib

/-!
Verification of the `dedent` library (indentation-normalising text utility).

Strings are modelled as `List Char`.  Python's whitespace notion (`str.isspace`
and the regex class `\s`, which coincide) is modelled by `pyIsSpace`.
`str.split("\n")` and `"\n".join` are modelled by `splitNL` / `joinNL`.
The functions `align_value`, `strip_string` and `dedent_string` are direct
translations of the functions of the same name in `src/dedent/_core.py`
(identical copies live in `src/dedent/_dedent.py` with a leading underscore).
The template-rendering path of `src/dedent/_dedent.py` (`_parse_format_spec`,
`_handle_item`, `dedent`) and the two marker scanners
(`process_align_markers` of `_dedent.py` and of `_aligned.py`, which use
different marker grammars) are modelled further below.
-/

/-- Shorthand turning a string literal into the `List Char` representation used
throughout this development. -/
def lit (s : String) : List Char := s.toList

/-- Python's whitespace predicate: the set of characters for which
`str.isspace()` holds, which is also the set matched by `\s` in `re` patterns
on `str`.  It covers the ASCII whitespace characters, the C1/field separators
and the Unicode space separators. -/
def pyIsSpace (c : Char) : Bool :=
  c == ' ' || c == '\t' || c == '\n' || c == '\r' ||
  c.val == 0x0b || c.val == 0x0c ||
  c.val == 0x1c || c.val == 0x1d || c.val == 0x1e || c.val == 0x1f ||
  c.val == 0x85 || c.val == 0xa0 || c.val == 0x1680 ||
  (decide (0x2000 ≤ c.val) && decide (c.val ≤ 0x200a)) ||
  c.val == 0x2028 || c.val == 0x2029 || c.val == 0x202f || c.val == 0x205f || c.val == 0x3000

/-- Python's `string.split(sep)` for a one-character separator: splits into the
(possibly empty) pieces between occurrences of `sep`; the result is never the
empty list. -/
def splitOnChar (sep : Char) : List Char → List (List Char)
  | [] => [[]]
  | c :: rest =>
    if c == sep then [] :: splitOnChar sep rest
    else
      match splitOnChar sep rest with
      | [] => [[c]]
      | h :: t => (c :: h) :: t

/-- Python's `sep.join(pieces)`. -/
def joinWith (sep : List Char) : List (List Char) → List Char
  | [] => []
  | [l] => l
  | l :: ls => l ++ sep ++ joinWith sep ls

/-- `string.split("\n")`. -/
def splitNL (s : List Char) : List (List Char) := splitOnChar '\n' s

/-- `"\n".join(lines)`. -/
def joinNL (ls : List (List Char)) : List Char := joinWith ['\n'] ls

/-- `string.isspace()`: true iff the string is nonempty and every character is
whitespace. -/
def pyIsSpaceStr (l : List Char) : Bool := !l.isEmpty && l.all pyIsSpace

/-- `_safe_match_first_group(_INDENTED, line)`: the regex `^(\s+)` captures the
(maximal, nonempty) leading whitespace run, or fails. -/
def matchIndented (l : List Char) : Option (List Char) :=
  let run := l.takeWhile pyIsSpace
  if run.isEmpty then none else some run

/-- `_safe_match_first_group(_INDENTED_WITH_CONTENT, line)`: the regex
`^(\s+)\S+` captures the maximal nonempty leading whitespace run provided it is
followed by at least one non-whitespace character, and fails otherwise. -/
def matchIndentedWithContent (l : List Char) : Option (List Char) :=
  let run := l.takeWhile pyIsSpace
  let rest := l.dropWhile pyIsSpace
  if run.isEmpty || rest.isEmpty then none else some run

/-- `preceding_text[preceding_text.rfind("\n") + 1 :]`: the suffix after the
last newline, or the whole string when it has no newline (Python's `rfind`
returns `-1` then). -/
def currentLineOf (p : List Char) : List Char :=
  (p.reverse.takeWhile (fun c => !(c == '\n'))).reverse

/-- `value.replace("\n", "\n" + indent)` for a single-character needle. -/
def replaceNL (v indent : List Char) : List Char :=
  match v with
  | [] => []
  | c :: rest => (if c == '\n' then '\n' :: indent else [c]) ++ replaceNL rest indent

/-- `align_value` from `src/dedent/_core.py` (same as `_align_value` in
`_dedent.py`): indent every line of `value` after the first to match the
leading whitespace of the current line of `preceding`. -/
def align_value (value preceding : List Char) : List Char :=
  match matchIndented (currentLineOf preceding) with
  | some indent => replaceNL value indent
  | none => value

/-- Character class `[^\S\n]`: whitespace other than newline. -/
def nonNLSpace (c : Char) : Bool := pyIsSpace c && !(c == '\n')

/-- `_SMART_STRIP.sub("", s, count=1)` where `_SMART_STRIP = ^[^\S\n]*\n?`:
remove the maximal leading run of non-newline whitespace together with one
immediately following newline when present.  The regex always matches at
position 0 (possibly with an empty span), so `sub` with `count=1` removes
exactly that leftmost match. -/
def smartStripSub (s : List Char) : List Char :=
  let run := s.takeWhile nonNLSpace
  match s.drop run.length with
  | [] => []
  | c :: t => if c == '\n' then t else c :: t

/-- Python's `string.strip()`: remove all leading and trailing whitespace. -/
def pyStripAll (s : List Char) : List Char :=
  ((s.dropWhile pyIsSpace).reverse.dropWhile pyIsSpace).reverse

/-- The three strip modes accepted by `dedent` (`Strip = Literal["smart", "all", "none"]`). -/
inductive Strip
  | smart
  | all
  | none
deriving DecidableEq

/-- `strip_string` from `src/dedent/_core.py`: `smart` applies `_SMART_STRIP`
once at the front, then once to the reversed string (re-reversing afterwards);
`all` is `str.strip()`; `none` returns the input. -/
def strip_string (s : List Char) : Strip → List Char
  | Strip.smart => (smartStripSub ((smartStripSub s).reverse)).reverse
  | Strip.all => pyStripAll s
  | Strip.none => s

/-- The accumulating lambda inside `dedent_string`'s `reduce`: fold the minimum
of the captured indent lengths over the lines, skipping lines where the regex
does not match. -/
def minStep (acc : Nat) (l : List Char) : Nat :=
  match matchIndentedWithContent l with
  | some ind => min acc ind.length
  | none => acc

/-- The per-line strip in `dedent_string`'s final comprehension:
`line[min_indent:] if len(line) >= min_indent and line[:min_indent].isspace() else line`. -/
def dedentLine (m : Nat) (l : List Char) : List Char :=
  if m ≤ l.length ∧ pyIsSpaceStr (l.take m) then l.drop m else l

/-- `dedent_string` from `src/dedent/_core.py` (same as `_dedent_string` in
`_dedent.py`): compute `min_indent` by folding over the lines starting from
`len(string)`, return the input unchanged when the fold is still `len(string)`,
and otherwise strip `min_indent` characters from every line whose prefix of
that length is entirely whitespace. -/
def dedent_string (s : List Char) : List Char :=
  let lines := splitNL s
  let max_indent := s.length
  let min_indent := lines.foldl minStep max_indent
  if min_indent = max_indent then s
  else joinNL (lines.map (dedentLine min_indent))

/-- A Python object as seen by the interpolation renderer.  Modelled from the
spec: values are consumed only through a capability interface (display string,
debug string, and `formatWith(spec)`), realised in Python by `str()`, `repr()`
and the built-in `format(value, spec)`, whose behaviour belongs to the value's
type and is not code of this repository.  `format_` returns the formatted text
or the message of the `ValueError` the native formatter raises. -/
structure PyObj where
  str_ : List Char
  repr_ : List Char
  format_ : List Char → Except (List Char) (List Char)

/-- Conversion modes of an interpolation (`!s`, `!r`, `!a`). -/
inductive Conv
  | toStr
  | toRepr
deriving DecidableEq

/-- A Python `str` object, as produced by `format(value, spec)`.  Modelled from
the spec: only the operations the renderer exercises afterwards (plain
stringification) matter; its own formatter is modelled as accepting just the
empty spec. -/
def mkPyStr (s : List Char) : PyObj :=
  { str_ := s
    repr_ := '\'' :: s ++ ['\'']
    format_ := fun spec => if spec.isEmpty then Except.ok s else Except.error (lit "unsupported format spec") }

/-- `string.templatelib.convert(value, conversion)`: `None` leaves the value
alone, `"s"`/`"r"` replace it by its display/debug string. -/
def pyConvert (v : PyObj) : Option Conv → PyObj
  | Option.none => v
  | some Conv.toStr => mkPyStr v.str_
  | some Conv.toRepr => mkPyStr v.repr_

/-- One item of a `Template`: a literal text fragment or an interpolation
carrying a value, an optional conversion and a format spec. -/
inductive Item
  | text (s : List Char)
  | interp (value : PyObj) (conversion : Option Conv) (format_spec : List Char)

/-- Membership test of `_parse_format_spec`'s predicate
`set(AlignSpec).__contains__`: is the segment exactly `align` or `noalign`? -/
def isAlignSpecSeg (s : List Char) : Bool := s == lit "align" || s == lit "noalign"

/-- `_parse_format_spec` from `src/dedent/_dedent.py`: split the spec on `:`,
partition the segments into alignment directives and the rest, let the last
directive win (`True` for `align`, `False` for `noalign`, `None` when absent),
and rejoin the remaining segments with `:`. -/
def parse_format_spec (fs : List Char) : List Char × Option Bool :=
  let specs := splitOnChar ':' fs
  let dedent_specs := specs.filter isAlignSpecSeg
  let other_specs := specs.filter (fun s => !isAlignSpecSeg s)
  let rest := joinWith [':'] other_specs
  match dedent_specs.getLast? with
  | Option.none => (rest, Option.none)
  | some d => (rest, some (d == lit "align"))

/-- Errors surfaced by `dedent`: the `TypeError` of the top-level input check
and the `ValueError` a native formatter raises on a bad format spec. -/
inductive PyError
  | typeError (msg : List Char)
  | valueError (msg : List Char)

/-- The formatting step inside `_handle_item`: when the residual format spec is
nonempty, `value = format(value, format_spec)` (a `str` object), propagating
the formatter's `ValueError`; otherwise the value is left as is. -/
def applyResidualSpec (v : PyObj) (residual : List Char) : Except PyError PyObj :=
  match residual with
  | [] => Except.ok v
  | _ :: _ =>
    match v.format_ residual with
    | Except.ok s => Except.ok (mkPyStr s)
    | Except.error e => Except.error (PyError.valueError e)

/-- `_handle_item` from `src/dedent/_dedent.py`: literal fragments pass
through; an interpolation is converted, formatted through the
directive-stripped residual spec (only when the original spec is nonempty),
stringified, and aligned against the preceding text when the effective
alignment decision (per-slot directive overriding the default flag) says so. -/
def handle_item (item : Item) (preceding_text : List Char) (al : Bool) : Except PyError (List Char) :=
  match item with
  | Item.text s => Except.ok s
  | Item.interp v conv fs =>
    let v0 := pyConvert v conv
    match fs with
    | [] =>
      let value := v0.str_
      Except.ok (if al then align_value value preceding_text else value)
    | f :: fsRest =>
      let parsed := parse_format_spec (f :: fsRest)
      match applyResidualSpec v0 parsed.1 with
      | Except.error e => Except.error e
      | Except.ok v1 =>
        let value := v1.str_
        let should_align := parsed.2.getD al
        Except.ok (if should_align then align_value value preceding_text else value)

/-- The `reduce` over the template items in `dedent`: each item is handled with
the text accumulated so far as `preceding_text` and appended to it; a
formatter error aborts the rendering. -/
def renderItemsGo (al : Bool) : List Item → List Char → Except PyError (List Char)
  | [], acc => Except.ok acc
  | it :: rest, acc =>
    match handle_item it acc al with
    | Except.error e => Except.error e
    | Except.ok s => renderItemsGo al rest (acc ++ s)

/-- Rendering of a full template, starting from the empty accumulator. -/
def renderItems (items : List Item) (al : Bool) : Except PyError (List Char) :=
  renderItemsGo al items []

/-- The sentinel byte `_SEP = "\x00"`. -/
def sepChar : Char := '\x00'

/-- `_ALIGN_MARKER_PREFIX` of `src/dedent/_dedent.py` followed by the colon:
the opening text `"\x00DEDENT_ALIGN:"` of that module's marker delimiters. -/
def dedentMarkerHead : List Char := sepChar :: lit "DEDENT_ALIGN:"

/-- `_START_PREFIX = "\x00DEDENT_ALIGN_START:"` of `src/dedent/_aligned.py`. -/
def alignedStartHead : List Char := sepChar :: lit "DEDENT_ALIGN_START:"

/-- `_END_PREFIX = "\x00DEDENT_ALIGN_END:"` of `src/dedent/_aligned.py`. -/
def alignedEndHead : List Char := sepChar :: lit "DEDENT_ALIGN_END:"

/-- The delimiter `f"{_SEP}{_ALIGN_MARKER_PREFIX}:{id}{_SEP}"` emitted by
`Aligned._wrap` in `src/dedent/_dedent.py` (the same delimiter opens and
closes a wrapped value there). -/
def dedentMarker (id : List Char) : List Char := dedentMarkerHead ++ id ++ [sepChar]

/-- `Aligned._wrap` of `src/dedent/_dedent.py`: the rendered text between two
identical id-tagged delimiters. -/
def dedentWrap (id text : List Char) : List Char := dedentMarker id ++ text ++ dedentMarker id

/-- The start delimiter `f"{_START_PREFIX}{id}{_SEP}"` emitted by
`Aligned._wrap` in `src/dedent/_aligned.py`. -/
def alignedStartMarker (id : List Char) : List Char := alignedStartHead ++ id ++ [sepChar]

/-- The end delimiter `f"{_END_PREFIX}{id}{_SEP}"` emitted by `Aligned._wrap`
in `src/dedent/_aligned.py`. -/
def alignedEndMarker (id : List Char) : List Char := alignedEndHead ++ id ++ [sepChar]

/-- `Aligned._wrap` of `src/dedent/_aligned.py` (the wrapper behind the
exported `align()`): the rendered text between an id-tagged start delimiter
and an id-tagged end delimiter. -/
def alignedWrap (id text : List Char) : List Char :=
  alignedStartMarker id ++ text ++ alignedEndMarker id

/-- A lowercase hexadecimal digit, the character class `[a-f0-9]` of the
marker regexes (`uuid4().hex` produces exactly 32 of these). -/
def isHexDigit (c : Char) : Bool :=
  (decide ('0' ≤ c) && decide (c ≤ '9')) || (decide ('a' ≤ c) && decide (c ≤ 'f'))

/-- Match a literal needle at the head of the input, returning the remainder on
success. -/
def stripLit (needle s : List Char) : Option (List Char) :=
  match needle, s with
  | [], rest => some rest
  | _ :: _, [] => Option.none
  | n :: ns, c :: cs => if c == n then stripLit ns cs else Option.none

/-- Match `([a-f0-9]{32})` followed by the sentinel byte, returning the id and
the remainder. -/
def matchHexId (s : List Char) : Option (List Char × List Char) :=
  let id := s.take 32
  if id.length == 32 && id.all isHexDigit then
    match stripLit [sepChar] (s.drop 32) with
    | some rest => some (id, rest)
    | Option.none => Option.none
  else Option.none

/-- Find the first occurrence of a needle, returning the text before it and
the text after it.  This realises the non-greedy `(.*?)` (with `DOTALL`) in
front of the closing delimiter: the payload is the shortest one. -/
def splitFirst (needle : List Char) : List Char → Option (List Char × List Char)
  | [] =>
    match stripLit needle [] with
    | some rest => some ([], rest)
    | Option.none => Option.none
  | c :: cs =>
    match stripLit needle (c :: cs) with
    | some rest => some ([], rest)
    | Option.none =>
      match splitFirst needle cs with
      | some (before, after) => some (c :: before, after)
      | Option.none => Option.none

/-- One leftmost match of `_ALIGN_MARKER` of `src/dedent/_dedent.py`
(`\x00DEDENT_ALIGN:([a-f0-9]{32})\x00(.*?)\x00DEDENT_ALIGN:\1\x00`): returns
the text before the match, the id, the (shortest) payload and the text after
the match.  Positions are tried left to right; a position where the opening
delimiter matches but no closing delimiter with the same id follows does not
match, exactly as the backtracking regex behaves. -/
def findMatchD : List Char → Option (List Char × List Char × List Char × List Char)
  | [] => Option.none
  | c :: cs =>
    match
      match stripLit dedentMarkerHead (c :: cs) with
      | Option.none => Option.none
      | some afterHead =>
        match matchHexId afterHead with
        | Option.none => Option.none
        | some (id, afterOpen) =>
          match splitFirst (dedentMarker id) afterOpen with
          | Option.none => Option.none
          | some (payload, post) => some (id, payload, post)
    with
    | some (id, payload, post) => some ([], id, payload, post)
    | Option.none =>
      match findMatchD cs with
      | some (pre, id, payload, post) => some (c :: pre, id, payload, post)
      | Option.none => Option.none

/-- One leftmost match of `_ALIGN_MARKER` of `src/dedent/_aligned.py`
(`\x00DEDENT_ALIGN_START:([a-f0-9]{32})\x00(.*?)\x00DEDENT_ALIGN_END:\1\x00`). -/
def findMatchA : List Char → Option (List Char × List Char × List Char × List Char)
  | [] => Option.none
  | c :: cs =>
    match
      match stripLit alignedStartHead (c :: cs) with
      | Option.none => Option.none
      | some afterHead =>
        match matchHexId afterHead with
        | Option.none => Option.none
        | some (id, afterOpen) =>
          match splitFirst (alignedEndMarker id) afterOpen with
          | Option.none => Option.none
          | some (payload, post) => some (id, payload, post)
    with
    | some (id, payload, post) => some ([], id, payload, post)
    | Option.none =>
      match findMatchA cs with
      | some (pre, id, payload, post) => some (c :: pre, id, payload, post)
      | Option.none => Option.none

/-- `process_align_markers` from `src/dedent/_dedent.py`, driven by the
leftmost-match finder.  The matches of `finditer` are consumed left to right,
each payload is recursively processed first (`# Handle nested markers first`),
aligned against everything assembled so far, and appended; with no match the
input is returned unchanged.  The Python recursion and loop always terminate
because payload and remainder are strictly shorter than the input, which the
fuel argument (instantiated with the input length) makes structural. -/
def processDGo : Nat → List Char → List Char → List Char
  | 0, acc, s => acc ++ s
  | fuel + 1, acc, s =>
    match findMatchD s with
    | Option.none => acc ++ s
    | some (pre, _, payload, post) =>
      let value := processDGo fuel [] payload
      let aligned := align_value value (acc ++ pre)
      processDGo fuel (acc ++ pre ++ aligned) post

/-- `process_align_markers` of `src/dedent/_dedent.py` (the scanner the
Python-3.14 `dedent` invokes). -/
def process_align_markers_dedent (s : List Char) : List Char :=
  processDGo s.length [] s

/-- `process_align_markers` from `src/dedent/_aligned.py`: identical loop, but
with the start/end marker grammar and without the recursive processing of the
payload. -/
def processAGo : Nat → List Char → List Char → List Char
  | 0, acc, s => acc ++ s
  | fuel + 1, acc, s =>
    match findMatchA s with
    | Option.none => acc ++ s
    | some (pre, _, payload, post) =>
      let aligned := align_value payload (acc ++ pre)
      processAGo fuel (acc ++ pre ++ aligned) post

/-- `process_align_markers` of `src/dedent/_aligned.py` (the scanner the
compatibility `dedent` of `_compat.py` invokes on Python < 3.14). -/
def process_align_markers_aligned (s : List Char) : List Char :=
  processAGo s.length [] s

/-- The top-level input of `dedent`: a plain string, a template, or any other
object, of which only the runtime type name (`type(x).__qualname__`) is
observable in the error path. -/
inductive DedentInput
  | ofString (s : List Char)
  | ofTemplate (items : List Item)
  | other (typeName : List Char)

/-- The message `f"expected str or Template, not {type(unknown).__qualname__!r}"`
of `src/dedent/_dedent.py` (the `!r` conversion quotes the name). -/
def typeErrMsg314 (name : List Char) : List Char :=
  lit "expected str or Template, not '" ++ name ++ ['\'']

/-- The message `f"expected str, not {type(string).__qualname__!r}"` of
`src/dedent/_compat.py`. -/
def typeErrMsgCompat (name : List Char) : List Char :=
  lit "expected str, not '" ++ name ++ ['\'']

/-- The shared tail of both `dedent` variants: scan markers, reduce
indentation, strip boundaries. -/
def dedentPipeline (scan : List Char → List Char) (s : List Char) (st : Strip) : List Char :=
  strip_string (dedent_string (scan s)) st

/-- `dedent` from `src/dedent/_dedent.py` (Python ≥ 3.14): a string passes
straight to the pipeline, a template is rendered first (propagating format
errors), anything else raises `TypeError` before any processing.  The marker
scanner used is this module's own `process_align_markers`. -/
def dedent314 (input : DedentInput) (al : Bool) (st : Strip) : Except PyError (List Char) :=
  match input with
  | DedentInput.ofString s =>
    Except.ok (dedentPipeline process_align_markers_dedent s st)
  | DedentInput.ofTemplate items =>
    match renderItems items al with
    | Except.error e => Except.error e
    | Except.ok rendered =>
      Except.ok (dedentPipeline process_align_markers_dedent rendered st)
  | DedentInput.other ty => Except.error (PyError.typeError (typeErrMsg314 ty))

/-- `dedent` from `src/dedent/_compat.py` (Python < 3.14): only plain strings
are accepted (`isinstance(string, str)`); a template object would fail the
check like any other non-string.  The marker scanner used is
`process_align_markers` of `_aligned.py`. -/
def dedentCompat (input : DedentInput) (st : Strip) : Except PyError (List Char) :=
  match input with
  | DedentInput.ofString s =>
    Except.ok (dedentPipeline process_align_markers_aligned s st)
  | DedentInput.ofTemplate _ =>
    Except.error (PyError.typeError (typeErrMsgCompat (lit "Template")))
  | DedentInput.other ty => Except.error (PyError.typeError (typeErrMsgCompat ty))

/-- Spec wording (§4.4): a line "that contains at least one non-whitespace
character". -/
def contentLine (l : List Char) : Bool := l.any (fun c => !pyIsSpace c)

/-- The lines the code's regex `^(\s+)\S+` actually lets contribute to the
minimum: a nonempty leading whitespace run followed by at least one
non-whitespace character. -/
def qualifiesLine (l : List Char) : Bool :=
  !(l.takeWhile pyIsSpace).isEmpty && !(l.dropWhile pyIsSpace).isEmpty

/-- The length of a line's leading whitespace run. -/
def runLen (l : List Char) : Nat := (l.takeWhile pyIsSpace).length

/-- The minimum of a list of naturals, `none` on the empty list. -/
def minOver : List Nat → Option Nat
  | [] => Option.none
  | n :: rest =>
    match minOver rest with
    | Option.none => some n
    | some m => some (min n m)

/-- The common indent as the code computes it: the minimum leading-run length
over the lines matched by `^(\s+)\S+`. -/
def codeCommonIndent (s : List Char) : Option Nat :=
  minOver (((splitNL s).filter qualifiesLine).map runLen)

/-- The common indent as the claim words it: the minimum leading-run length
over every line containing at least one non-whitespace character (an
unindented content line contributing a run length of 0). -/
def claimCommonIndent (s : List Char) : Option Nat :=
  minOver (((splitNL s).filter contentLine).map runLen)

/-- The per-line removal in the claim's words: the prefix of the common-indent
length is removed exactly when the line is at least that long and the prefix
is entirely whitespace. -/
def specStripLine (m : Nat) (l : List Char) : List Char :=
  if m ≤ l.length ∧ (l.take m).all pyIsSpace then l.drop m else l

/-- A run of `N` spaces. -/
def spacesN (N : Nat) : List Char := List.replicate N ' '

/-- Prepend `N` spaces to one line when it is non-blank (contains at least one
non-whitespace character). -/
def indentLineBy (N : Nat) (l : List Char) : List Char :=
  if contentLine l then spacesN N ++ l else l

/-- The round-trip construction of the claim: uniformly prepend `N` spaces to
every non-blank line. -/
def addIndentN (N : Nat) (s : List Char) : List Char :=
  joinNL ((splitNL s).map (indentLineBy N))

/-- Modelled from the spec words for `smart` stripping: consume one leading
run of non-newline whitespace and at most one immediately following newline,
stopping at the first content character. -/
def dropBlankLead : List Char → List Char
  | [] => []
  | c :: t => if c == '\n' then t else if pyIsSpace c then dropBlankLead t else c :: t

/-- Modelled from the spec words for `all` stripping: consume every leading
whitespace character. -/
def trimLeadWS : List Char → List Char
  | [] => []
  | c :: t => if pyIsSpace c then trimLeadWS t else c :: t

/-- The boundary stripper as the claim words it: `smart` removes one
blank-or-whitespace-only leading segment and, by the same pattern applied to
the reversed string and re-reversed, one trailing segment; `all` removes all
leading and trailing whitespace; `none` changes nothing. -/
def stripSpec (s : List Char) : Strip → List Char
  | Strip.smart => (dropBlankLead ((dropBlankLead s).reverse)).reverse
  | Strip.all => (trimLeadWS ((trimLeadWS s).reverse)).reverse
  | Strip.none => s

/-- Does a successful `dedent` result contain a given character? -/
def okContains (e : Except PyError (List Char)) (c : Char) : Bool :=
  match e with
  | Except.ok s => c ∈ s
  | Except.error _ => false

/-- A 32-hex-digit marker id (`uuid4().hex` has this shape). -/
def idA : List Char := List.replicate 32 'a'

/-- A second, distinct 32-hex-digit marker id. -/
def idB : List Char := List.replicate 32 'b'

/-- A Python `str` value for interpolation (its native formatter is modelled
only as far as the claims exercise it: the empty spec renders the string
itself). -/
def strValue (s : List Char) : PyObj := mkPyStr s

/-- Modelled from the spec: a Python `int` value such as `123`; CPython's
`int.__format__` rejects the spec `"algn"` with
`ValueError("Invalid format specifier")`, the behaviour the repository's own
test `test_unknown_format_spec` pins. -/
def intValue123 : PyObj :=
  { str_ := lit "123"
    repr_ := lit "123"
    format_ := fun spec =>
      if spec.isEmpty then Except.ok (lit "123")
      else Except.error (lit "Invalid format specifier") }

/-- Modelled from the spec: a value whose native formatter accepts every
format spec, as Python permits (`datetime.__format__` delegates to `strftime`,
which returns a spec like `"algn"` verbatim since it holds no `%` directive). -/
def permissiveValue : PyObj :=
  { str_ := lit "<obj>"
    repr_ := lit "<obj>"
    format_ := fun spec => Except.ok spec }

/-- The template of the spec's Scenario B: `"List:\n    {X}\n---\n"` with
`X = "- a\n- b"`, no conversion and no format spec. -/
def scenarioBItems : List Item :=
  [Item.text (lit "List:\n    "),
   Item.interp (strValue (lit "- a\n- b")) Option.none [],
   Item.text (lit "\n---\n")]

/-- The template `"A:\n    {X}\n"` with `X = "x\ny"`, used to render the
per-slot-alignment side of the path-equivalence claim. -/
def pathEquivItems : List Item :=
  [Item.text (lit "A:\n    "),
   Item.interp (strValue (lit "x\ny")) Option.none [],
   Item.text (lit "\n")]

/-- The marker-protocol side of the same input: the f-string
`f"A:\n    {align('x\ny')}\n"` rendered ahead of time, i.e. the literal text
with the exported wrapper's markers around the value. -/
def pathEquivMarked : List Char :=
  lit "A:\n    " ++ alignedWrap idA (lit "x\ny") ++ lit "\n"

/-- A well-formed nested marker string as produced by the exported wrapper:
`str(align(str(align("x"))))`, the outer pair around a payload that itself
carries an inner pair with a distinct id. -/
def nestedMarked : List Char := alignedWrap idA (alignedWrap idB (lit "x"))

theorem takeWhile_append_all (P : Char → Bool) (l r : List Char) (h : ∀ c ∈ l, P c) :
    (l ++ r).takeWhile P = l ++ r.takeWhile P := by
  induction l with
  | nil => simp
  | cons c t ih =>
    have hc : P c := h c (by simp)
    have ih' := ih (fun x hx => h x (by simp [hx]))
    simp [hc, ih']

theorem takeWhile_append_stop (P : Char → Bool) (l r : List Char)
    (h : ∃ c ∈ l, P c = false) : (l ++ r).takeWhile P = l.takeWhile P := by
  induction l with
  | nil => simp at h
  | cons c t ih =>
    by_cases hc : P c
    · rcases h with ⟨x, hx, hPx⟩
      rcases List.mem_cons.mp hx with rfl | hx'
      · simp [hc] at hPx
      · have ih' := ih ⟨x, hx', hPx⟩
        simp [hc, ih']
    · simp [List.takeWhile_cons, hc]

theorem dropWhile_append_all (P : Char → Bool) (l r : List Char) (h : ∀ c ∈ l, P c) :
    (l ++ r).dropWhile P = r.dropWhile P := by
  induction l with
  | nil => simp
  | cons c t ih =>
    have hc : P c := h c (by simp)
    have ih' := ih (fun x hx => h x (by simp [hx]))
    simp [hc, ih']

theorem splitOnChar_ne_nil (sep : Char) (s : List Char) : splitOnChar sep s ≠ [] := by
  cases s with
  | nil => simp [splitOnChar]
  | cons c rest =>
    simp only [splitOnChar]
    split
    · simp
    · split <;> simp

theorem mem_splitOnChar_not_sep (sep : Char) (s : List Char) :
    ∀ l ∈ splitOnChar sep s, sep ∉ l := by
  induction s with
  | nil =>
    intro l hl
    simp [splitOnChar] at hl
    simp [hl]
  | cons c rest ih =>
    intro l hl
    simp only [splitOnChar] at hl
    by_cases hc : c == sep
    · simp only [hc, if_true] at hl
      rcases List.mem_cons.mp hl with rfl | hl'
      · simp
      · exact ih l hl'
    · simp only [hc, if_false] at hl
      rcases hrest : splitOnChar sep rest with _ | ⟨h, t⟩
      · exact absurd hrest (splitOnChar_ne_nil sep rest)
      · rw [hrest] at hl
        rcases List.mem_cons.mp hl with rfl | hl'
        · intro hmem
          rcases List.mem_cons.mp hmem with rfl | hmem'
          · simp at hc
          · exact ih h (by rw [hrest]; simp) hmem'
        · exact ih l (by rw [hrest]; simp [hl']) 

theorem joinWith_cons_head (sep : List Char) (c : Char) (h : List Char) (t : List (List Char)) :
    joinWith sep ((c :: h) :: t) = c :: joinWith sep (h :: t) := by
  cases t <;> simp [joinWith]

theorem joinNL_cons_nil (h : List Char) (t : List (List Char)) :
    joinNL ([] :: h :: t) = '\n' :: joinNL (h :: t) := by
  simp [joinNL, joinWith]

theorem joinNL_splitNL (s : List Char) : joinNL (splitNL s) = s := by
  induction s with
  | nil => rfl
  | cons c rest ih =>
    obtain ⟨h, t, hrest⟩ := List.exists_cons_of_ne_nil (splitOnChar_ne_nil '\n' rest)
    rw [splitNL] at ih
    rw [hrest] at ih
    by_cases hc : c = '\n'
    · subst hc
      simp only [splitNL, splitOnChar, beq_self_eq_true, if_true, hrest]
      rw [joinNL_cons_nil, ih]
    · have hc' : (c == '\n') = false := by simpa using hc
      simp only [splitNL, splitOnChar, hc', Bool.false_eq_true, if_false, hrest]
      rw [show joinNL ((c :: h) :: t) = c :: joinNL (h :: t) from joinWith_cons_head ['\n'] c h t, ih]

theorem splitNL_of_no_nl (l : List Char) (h : '\n' ∉ l) : splitNL l = [l] := by
  induction l with
  | nil => rfl
  | cons c rest ih =>
    have hc : (c == '\n') = false := by
      simp only [beq_eq_false_iff_ne, ne_eq]
      intro hcc
      exact h (by simp [hcc])
    have ih' := ih (fun hm => h (by simp [hm]))
    simp only [splitNL, splitOnChar] at ih' ⊢
    simp [hc, ih']

theorem splitNL_append_nl (l r : List Char) (h : '\n' ∉ l) :
    splitNL (l ++ '\n' :: r) = l :: splitNL r := by
  induction l with
  | nil => simp [splitNL, splitOnChar]
  | cons c rest ih =>
    have hc : (c == '\n') = false := by
      simp only [beq_eq_false_iff_ne, ne_eq]
      intro hcc
      exact h (by simp [hcc])
    have ih' := ih (fun hm => h (by simp [hm]))
    simp only [splitNL, splitOnChar] at ih' ⊢
    simp [hc, ih']

theorem splitNL_joinNL (ls : List (List Char)) (hne : ls ≠ [])
    (h : ∀ l ∈ ls, '\n' ∉ l) : splitNL (joinNL ls) = ls := by
  induction ls with
  | nil => exact absurd rfl hne
  | cons l rest ih =>
    cases rest with
    | nil =>
      simp only [joinNL, joinWith]
      exact splitNL_of_no_nl l (h l (by simp))
    | cons h2 t2 =>
      have hjoin : joinNL (l :: h2 :: t2) = l ++ '\n' :: joinNL (h2 :: t2) := by
        simp [joinNL, joinWith]
      rw [hjoin, splitNL_append_nl l _ (h l (by simp)),
        ih (by simp) (fun x hx => h x (by simp [hx]))]

theorem length_le_joinWith (sep : List Char) (ls : List (List Char)) (l : List Char)
    (hl : l ∈ ls) : l.length ≤ (joinWith sep ls).length := by
  induction ls with
  | nil => simp at hl
  | cons h t ih =>
    cases t with
    | nil =>
      rcases List.mem_cons.mp hl with rfl | hl'
      · simp [joinWith]
      · simp at hl'
    | cons h2 t2 =>
      have hexp : joinWith sep (h :: h2 :: t2) = h ++ sep ++ joinWith sep (h2 :: t2) := by
        simp [joinWith]
      rcases List.mem_cons.mp hl with rfl | hl'
      · simp [hexp]
      · calc l.length ≤ (joinWith sep (h2 :: t2)).length := ih hl'
          _ ≤ (joinWith sep (h :: h2 :: t2)).length := by
              simp only [hexp, List.length_append]
              omega

theorem mem_splitNL_length_le (s l : List Char) (hl : l ∈ splitNL s) :
    l.length ≤ s.length := by
  have := length_le_joinWith ['\n'] (splitNL s) l hl
  rwa [show joinWith ['\n'] (splitNL s) = joinNL (splitNL s) from rfl, joinNL_splitNL s] at this

theorem minOver_mem (xs : List Nat) (m : Nat) (h : minOver xs = some m) : m ∈ xs := by
  induction xs generalizing m with
  | nil => simp [minOver] at h
  | cons n rest ih =>
    simp only [minOver] at h
    rcases hrest : minOver rest with _ | m'
    · rw [hrest] at h
      simp at h
      simp [h]
    · rw [hrest] at h
      simp only [Option.some.injEq] at h
      rcases min_choice n m' with hmin | hmin
      · rw [hmin] at h
        simp [← h]
      · rw [hmin] at h
        exact List.mem_cons_of_mem n (ih m (by rw [hrest, h]))

theorem minOver_const (xs : List Nat) (N : Nat) (hne : xs ≠ []) (h : ∀ x ∈ xs, x = N) :
    minOver xs = some N := by
  induction xs with
  | nil => exact absurd rfl hne
  | cons n t ih =>
    have hn : n = N := h n (by simp)
    cases t with
    | nil => simp [minOver, hn]
    | cons m t2 =>
      have ih' := ih (by simp) (fun x hx => h x (by simp [hx]))
      simp only [minOver] at ih' ⊢
      rw [ih', hn]
      simp

theorem matchIWC_eq (l : List Char) :
    matchIndentedWithContent l =
      if qualifiesLine l then some (l.takeWhile pyIsSpace) else Option.none := by
  simp only [matchIndentedWithContent, qualifiesLine]
  by_cases h1 : (l.takeWhile pyIsSpace).isEmpty <;>
    by_cases h2 : (l.dropWhile pyIsSpace).isEmpty <;> simp [h1, h2]

theorem foldl_minStep (ls : List (List Char)) (init : Nat) :
    ls.foldl minStep init =
      match minOver ((ls.filter qualifiesLine).map runLen) with
      | Option.none => init
      | some m => min init m := by
  induction ls generalizing init with
  | nil => simp [minOver]
  | cons l t ih =>
    simp only [List.foldl_cons]
    by_cases hq : qualifiesLine l
    · have hstep : minStep init l = min init (runLen l) := by
        simp [minStep, matchIWC_eq, hq, runLen]
      have hfil : (l :: t).filter qualifiesLine = l :: t.filter qualifiesLine := by
        simp [List.filter_cons, hq]
      rw [hstep, ih (min init (runLen l)), hfil, List.map_cons]
      rcases hrest : minOver ((t.filter qualifiesLine).map runLen) with _ | m
      · simp [minOver, hrest]
      · simp [minOver, hrest, min_assoc]
    · have hstep : minStep init l = init := by
        simp [minStep, matchIWC_eq, hq]
      have hfil : (l :: t).filter qualifiesLine = t.filter qualifiesLine := by
        simp [List.filter_cons, hq]
      rw [hstep, ih init, hfil]

theorem dedent_string_of_none (s : List Char) (h : codeCommonIndent s = Option.none) :
    dedent_string s = s := by
  have hfold : (splitNL s).foldl minStep s.length = s.length := by
    rw [foldl_minStep]
    unfold codeCommonIndent at h
    rw [h]
  simp only [dedent_string, hfold, if_pos]

theorem codeCommonIndent_lt (s : List Char) (m : Nat) (h : codeCommonIndent s = some m) :
    m < s.length := by
  have hm := minOver_mem _ m h
  simp only [List.mem_map] at hm
  obtain ⟨l, hl, hrun⟩ := hm
  have hlf := List.mem_filter.mp hl
  have hq : qualifiesLine l := hlf.2
  have hdw : l.dropWhile pyIsSpace ≠ [] := by
    simp only [qualifiesLine, Bool.and_eq_true, Bool.not_eq_true', List.isEmpty_iff] at hq
    simpa using hq.2
  have hsplit := List.takeWhile_append_dropWhile (p := pyIsSpace) (l := l)
  have hlen := congrArg List.length hsplit
  rw [List.length_append] at hlen
  have hpos : 0 < (l.dropWhile pyIsSpace).length := List.length_pos.mpr hdw
  have h1 : runLen l < l.length := by
    unfold runLen
    omega
  have h2 : l.length ≤ s.length := mem_splitNL_length_le s l hlf.1
  omega

theorem dedent_string_of_some (s : List Char) (m : Nat) (h : codeCommonIndent s = some m) :
    dedent_string s = joinNL ((splitNL s).map (dedentLine m)) := by
  have hlt := codeCommonIndent_lt s m h
  have hfold : (splitNL s).foldl minStep s.length = m := by
    rw [foldl_minStep]
    unfold codeCommonIndent at h
    rw [h]
    exact min_eq_right (le_of_lt hlt)
  simp only [dedent_string, hfold]
  rw [if_neg (by omega)]

theorem dedentLine_eq_specStripLine (m : Nat) (l : List Char) :
    dedentLine m l = specStripLine m l := by
  unfold dedentLine specStripLine
  rcases Nat.eq_zero_or_pos m with rfl | hpos
  · simp [pyIsSpaceStr]
  · by_cases hm : m ≤ l.length
    · have htk : ¬(l.take m).isEmpty := by
        simp only [List.isEmpty_iff]
        intro hemp
        have := congrArg List.length hemp
        simp only [List.length_take, List.length_nil] at this
        omega
      simp [pyIsSpaceStr, hm, htk]
    · simp [hm]

theorem head_not_space_of_flush (l : List Char) (hl : l.takeWhile pyIsSpace = [])
    (c : Char) (t : List Char) (hct : l = c :: t) : pyIsSpace c = false := by
  subst hct
  by_cases hc : pyIsSpace c
  · simp [List.takeWhile_cons, hc] at hl
  · simpa using hc

theorem nil_of_blank_flush (l : List Char) (hl : l.takeWhile pyIsSpace = [])
    (hc : contentLine l = false) : l = [] := by
  cases l with
  | nil => rfl
  | cons c t =>
    simp only [contentLine, List.any_cons, Bool.or_eq_false_iff, Bool.not_eq_false'] at hc
    simp [List.takeWhile_cons, hc.1] at hl

theorem dropWhile_eq_self_of_flush (l : List Char) (hl : l.takeWhile pyIsSpace = []) :
    l.dropWhile pyIsSpace = l := by
  have hsplit := List.takeWhile_append_dropWhile (p := pyIsSpace) (l := l)
  rwa [hl, List.nil_append] at hsplit

theorem spacesN_all_space (N : Nat) : ∀ c ∈ spacesN N, pyIsSpace c := by
  intro c hc
  rw [(List.mem_replicate.mp hc).2]
  decide

theorem indentLine_takeWhile (N : Nat) (l : List Char) (hflush : l.takeWhile pyIsSpace = []) :
    (spacesN N ++ l).takeWhile pyIsSpace = spacesN N := by
  rw [takeWhile_append_all pyIsSpace (spacesN N) l (spacesN_all_space N), hflush,
    List.append_nil]

theorem indentLine_dropWhile (N : Nat) (l : List Char) (hflush : l.takeWhile pyIsSpace = []) :
    (spacesN N ++ l).dropWhile pyIsSpace = l := by
  rw [dropWhile_append_all pyIsSpace (spacesN N) l (spacesN_all_space N),
    dropWhile_eq_self_of_flush l hflush]

theorem dedent_string_fixed_of_flush (s : List Char)
    (h : ∀ l ∈ splitNL s, l.takeWhile pyIsSpace = []) : dedent_string s = s := by
  apply dedent_string_of_none
  unfold codeCommonIndent
  have hfilnil : (splitNL s).filter qualifiesLine = [] := by
    apply List.filter_eq_nil_iff.mpr
    intro l hl
    simp [qualifiesLine, h l hl]
  rw [hfilnil]
  rfl

/-- C1: the claim's reading of the indentation reducer fails on the code: in
`"a\n  b"` the content line `"a"` carries no leading whitespace, so the claim
makes the common indent 0 and the input unchanged, yet `dedent_string` (whose
regex `^(\s+)\S+` ignores lines without leading whitespace when taking the
minimum) strips two characters from the second line. -/
theorem dedent_reducer_counterexample :
    claimCommonIndent (lit "a\n  b") = some 0 ∧
    dedent_string (lit "a\n  b") = lit "a\nb" ∧
    lit "a\nb" ≠ lit "a\n  b" := by
  refine ⟨by decide, by decide, by decide⟩

/-- C1 (amended): the indentation reducer computes the common indent as the
minimum leading-whitespace run length over the lines with a nonempty leading
whitespace run followed by a non-whitespace character; content lines without
leading whitespace do not participate.  When no line qualifies the input is
returned unchanged, and otherwise a line's prefix of the common-indent length
is removed exactly when the line is at least that long and the prefix is
entirely whitespace. -/
theorem dedent_reducer_amended (s : List Char) :
    (codeCommonIndent s = Option.none → dedent_string s = s) ∧
    (∀ m, codeCommonIndent s = some m →
      dedent_string s = joinNL ((splitNL s).map (specStripLine m))) := by
  constructor
  · exact dedent_string_of_none s
  · intro m hm
    rw [dedent_string_of_some s m hm]
    congr 1
    exact List.map_congr_left (fun l _ => dedentLine_eq_specStripLine m l)

/-- Witness for C1 (amended) at the concrete input `"  a\n   b"`, whose common
indent is 2. -/
theorem dedent_reducer_amended_witness :
    codeCommonIndent (lit "  a\n   b") = some 2 ∧
    dedent_string (lit "  a\n   b") = joinNL ((splitNL (lit "  a\n   b")).map (specStripLine 2)) :=
  ⟨by decide, (dedent_reducer_amended (lit "  a\n   b")).2 2 (by decide)⟩

/-- C2: the round-trip claim fails already at `N = 0`: prepending zero spaces
to every non-blank line of `"  a"` leaves it unchanged, but the reducer strips
its two-space indent, so the dedent of the result is not the original. -/
theorem roundTrip_counterexample :
    addIndentN 0 (lit "  a") = lit "  a" ∧
    dedent_string (addIndentN 0 (lit "  a")) = lit "a" ∧
    lit "a" ≠ lit "  a" := by
  refine ⟨by decide, by decide, by decide⟩

/-- C2 (amended): the round-trip holds for every `N ≥ 0` on the strings the
construction can reproduce at all, namely those in which every line is either
empty or begins with a non-whitespace character (equivalently, every line has
an empty leading-whitespace run): uniformly prepending `N` spaces to every
non-blank line and then applying the indentation reducer returns the original
string. -/
theorem roundTrip_amended (s : List Char) (N : Nat)
    (h : ∀ l ∈ splitNL s, l.takeWhile pyIsSpace = []) :
    dedent_string (addIndentN N s) = s := by
  have hnoNL : ∀ l ∈ splitNL s, '\n' ∉ l := fun l hl => mem_splitOnChar_not_sep '\n' s l hl
  have hlsne : splitNL s ≠ [] := splitOnChar_ne_nil '\n' s
  have hjoin : joinNL (splitNL s) = s := joinNL_splitNL s
  rcases Nat.eq_zero_or_pos N with rfl | hNpos
  · have hid : ∀ l ∈ splitNL s, indentLineBy 0 l = l := by
      intro l hl
      simp [indentLineBy, spacesN]
    have haddid : addIndentN 0 s = s := by
      unfold addIndentN
      calc joinNL ((splitNL s).map (indentLineBy 0))
          = joinNL ((splitNL s).map id) := by rw [List.map_congr_left hid]; rfl
        _ = s := by rw [List.map_id]; exact hjoin
    rw [haddid]
    exact dedent_string_fixed_of_flush s h
  by_cases hcont : ∃ l ∈ splitNL s, contentLine l
  case neg =>
    have hid : ∀ l ∈ splitNL s, indentLineBy N l = l := by
      intro l hl
      have hc : contentLine l = false := by
        by_contra hcc
        exact hcont ⟨l, hl, by simpa using hcc⟩
      simp [indentLineBy, hc]
    have haddid : addIndentN N s = s := by
      unfold addIndentN
      calc joinNL ((splitNL s).map (indentLineBy N))
          = joinNL ((splitNL s).map id) := by rw [List.map_congr_left hid]; rfl
        _ = s := by rw [List.map_id]; exact hjoin
    rw [haddid]
    exact dedent_string_fixed_of_flush s h
  case pos =>
    obtain ⟨l₀, hl₀, hc₀⟩ := hcont
    have hmapnoNL : ∀ l' ∈ (splitNL s).map (indentLineBy N), '\n' ∉ l' := by
      intro l' hl'
      obtain ⟨l, hl, rfl⟩ := List.mem_map.mp hl'
      by_cases hc : contentLine l
      · simp only [indentLineBy, hc, if_true]
        intro hmem
        rcases List.mem_append.mp hmem with hmem | hmem
        · have h' := (List.mem_replicate.mp hmem).2
          simp at h'
        · exact hnoNL l hl hmem
      · simp only [indentLineBy, hc, Bool.false_eq_true, if_false]
        exact hnoNL l hl
    have hmapne : (splitNL s).map (indentLineBy N) ≠ [] := by
      simp only [ne_eq, List.map_eq_nil_iff]
      exact hlsne
    have hsplitAdd : splitNL (addIndentN N s) = (splitNL s).map (indentLineBy N) := by
      unfold addIndentN
      exact splitNL_joinNL _ hmapne hmapnoNL
    have hqual : ∀ l ∈ splitNL s, qualifiesLine (indentLineBy N l) = contentLine l := by
      intro l hl
      by_cases hc : contentLine l
      · obtain ⟨c, t, rfl⟩ : ∃ c t, l = c :: t := by
          cases l with
          | nil => simp [contentLine] at hc
          | cons c t => exact ⟨c, t, rfl⟩
        have htw := indentLine_takeWhile N (c :: t) (h _ hl)
        have hdw := indentLine_dropWhile N (c :: t) (h _ hl)
        have hne : ¬(spacesN N).isEmpty := by
          simp only [List.isEmpty_iff, spacesN, List.replicate_eq_nil_iff]
          omega
        simp [indentLineBy, hc, qualifiesLine, htw, hdw, hne]
      · have hnil : l = [] := nil_of_blank_flush l (h l hl) (by simpa using hc)
        subst hnil
        simp [indentLineBy, contentLine, qualifiesLine]
    have hrun : ∀ l ∈ splitNL s, contentLine l → runLen (indentLineBy N l) = N := by
      intro l hl hc
      have htw := indentLine_takeWhile N l (h _ hl)
      simp only [indentLineBy, hc, if_true, runLen, htw]
      simp [spacesN]
    have hcode : codeCommonIndent (addIndentN N s) = some N := by
      unfold codeCommonIndent
      rw [hsplitAdd, List.filter_map,
        List.filter_congr (fun l hl => by simpa using hqual l hl), List.map_map]
      apply minOver_const
      · exact List.ne_nil_of_mem (List.mem_map.mpr ⟨l₀, List.mem_filter.mpr ⟨hl₀, hc₀⟩, rfl⟩)
      · intro x hx
        obtain ⟨l, hl, rfl⟩ := List.mem_map.mp hx
        have hlf := List.mem_filter.mp hl
        exact hrun l hlf.1 hlf.2
    have hded : ∀ l ∈ splitNL s, dedentLine N (indentLineBy N l) = l := by
      intro l hl
      by_cases hc : contentLine l
      · simp only [indentLineBy, hc, if_true]
        have hlenN : (spacesN N).length = N := by simp [spacesN]
        have hlen : N ≤ (spacesN N ++ l).length := by simp [spacesN]
        have htake : (spacesN N ++ l).take N = spacesN N := by
          have h' := List.take_left (spacesN N) l
          rwa [hlenN] at h'
        have hdrop : (spacesN N ++ l).drop N = l := by
          have h' := List.drop_left (spacesN N) l
          rwa [hlenN] at h'
        have hsp : pyIsSpaceStr (spacesN N) = true := by
          unfold pyIsSpaceStr
          have h1 : (spacesN N).isEmpty = false := by
            have hne : spacesN N ≠ [] := by
              simp only [spacesN, ne_eq, List.replicate_eq_nil_iff]
              omega
            simpa [List.isEmpty_iff] using hne
          have h2 : (spacesN N).all pyIsSpace = true :=
            List.all_eq_true.mpr (spacesN_all_space N)
          simp [h1, h2]
        unfold dedentLine
        rw [if_pos ⟨hlen, by rw [htake]; exact hsp⟩, hdrop]
      · have hnil : l = [] := nil_of_blank_flush l (h l hl) (by simpa using hc)
        subst hnil
        have hempty : indentLineBy N [] = [] := by simp [indentLineBy, contentLine]
        rw [hempty]
        unfold dedentLine
        split <;> simp
    calc dedent_string (addIndentN N s)
        = joinNL ((splitNL (addIndentN N s)).map (dedentLine N)) :=
          dedent_string_of_some _ N hcode
      _ = joinNL (((splitNL s).map (indentLineBy N)).map (dedentLine N)) := by rw [hsplitAdd]
      _ = joinNL ((splitNL s).map (fun l => dedentLine N (indentLineBy N l))) := by
          rw [List.map_map]
          rfl
      _ = joinNL ((splitNL s).map id) := by
          rw [List.map_congr_left (fun l hl => hded l hl)]
          rfl
      _ = s := by rw [List.map_id]; exact hjoin

/-- Witness for C2 (amended) at `s = "a\n\nb"`, `N = 2`: every line of `s` is
empty or starts with content, and the round trip through `addIndentN` and
`dedent_string` reproduces `s`. -/
theorem roundTrip_amended_witness :
    (∀ l ∈ splitNL (lit "a\n\nb"), l.takeWhile pyIsSpace = []) ∧
    dedent_string (addIndentN 2 (lit "a\n\nb")) = lit "a\n\nb" :=
  ⟨by decide, roundTrip_amended (lit "a\n\nb") 2 (by decide)⟩

/-- C3: Scenario B does not produce the output the claim states: the template
`"List:\n    {X}\n---\n"` with `X = "- a\n- b"`, `align = true` and smart
stripping yields `"List:\n- a\n- b\n---"`, not
`"List:\n    - a\n    - b\n---"` — the aligned four-space indent is removed
again by the reducer because the unindented `"List:"` line does not
participate in the minimum. -/
theorem scenarioB_counterexample :
    dedent314 (DedentInput.ofTemplate scenarioBItems) true Strip.smart ≠
      Except.ok (lit "List:\n    - a\n    - b\n---") := by
  intro hcontra
  have h1 : dedent314 (DedentInput.ofTemplate scenarioBItems) true Strip.smart =
      Except.ok (lit "List:\n- a\n- b\n---") := rfl
  rw [h1] at hcontra
  have h2 := Except.ok.inj hcontra
  exact absurd h2 (by decide)

/-- C3 (amended): on the Scenario B input, `dedent` returns exactly
`"List:\n- a\n- b\n---"`: the value is aligned during rendering, but the
common-indent removal then strips the inserted four spaces since the first
line `"List:"` has no leading whitespace and is ignored by the minimum. -/
theorem scenarioB_amended :
    dedent314 (DedentInput.ofTemplate scenarioBItems) true Strip.smart =
      Except.ok (lit "List:\n- a\n- b\n---") := rfl

set_option maxRecDepth 8000 in
/-- C4: evaluation at the failing input.  The template path renders
`"A:\n    x\n    y\n"`, but the marker path hands the scanner of `_dedent.py`
a string carrying the `_aligned.py` wrapper's `START`/`END` markers, which its
regex does not match: the string passes through unchanged, and the sentinel
byte survives all the way through `dedent`'s output. -/
theorem marker_format_mismatch_eval :
    renderItems pathEquivItems true = Except.ok (lit "A:\n    x\n    y\n") ∧
    process_align_markers_dedent pathEquivMarked = pathEquivMarked ∧
    sepChar ∈ pathEquivMarked ∧
    okContains (dedent314 (DedentInput.ofString pathEquivMarked) false Strip.smart) sepChar
      = true := by
  refine ⟨rfl, rfl, by decide, by decide⟩

set_option maxRecDepth 8000 in
/-- C5: evaluation at the failing input.  On a well-formed nested wrapping
`str(align(str(align("x"))))`, the scanner of `_aligned.py` removes only the
outer marker pair; the inner pair (sentinel bytes and
`DEDENT_ALIGN_START`/`END` literals included) stays in the output of marker
processing and of the compatibility `dedent`. -/
theorem nested_marker_leak_eval :
    process_align_markers_aligned nestedMarked = alignedWrap idB (lit "x") ∧
    sepChar ∈ process_align_markers_aligned nestedMarked ∧
    okContains (dedentCompat (DedentInput.ofString nestedMarked) Strip.smart) sepChar = true := by
  refine ⟨rfl, by decide, by decide⟩

/-- C6: the code performs no near-miss detection on format specs: with a value
whose native formatter accepts any spec (as Python objects may), the spec
`"algn"` is treated as a plain residual format spec and `dedent` silently
renders `"algn"`-formatted output instead of raising. -/
theorem algn_silent_render_counterexample :
    dedent314 (DedentInput.ofTemplate [Item.interp permissiveValue Option.none (lit "algn")])
      false Strip.smart = Except.ok (lit "algn") := rfl

/-- C6 (amended): a format spec of `"algn"` is not recognised as a directive by
`_parse_format_spec`; it flows into the residual spec and is handed to the
value's native formatter, so `dedent` raises a format error exactly when that
formatter rejects `"algn"` (as `int` or `str` do, which the repository's test
pins) and renders the formatter's output otherwise. -/
theorem algn_spec_flows_to_formatter (v : PyObj) (conv : Option Conv) (p : List Char) (al : Bool) :
    handle_item (Item.interp v conv (lit "algn")) p al =
      match (pyConvert v conv).format_ (lit "algn") with
      | Except.error e => Except.error (PyError.valueError e)
      | Except.ok s => Except.ok (if al then align_value s p else s) := by
  have hexp : handle_item (Item.interp v conv (lit "algn")) p al =
      match applyResidualSpec (pyConvert v conv) (lit "algn") with
      | Except.error e => Except.error e
      | Except.ok v1 => Except.ok (if al then align_value v1.str_ p else v1.str_) := rfl
  have hexp2 : applyResidualSpec (pyConvert v conv) (lit "algn") =
      match (pyConvert v conv).format_ (lit "algn") with
      | Except.ok s => Except.ok (mkPyStr s)
      | Except.error e => Except.error (PyError.valueError e) := rfl
  rw [hexp, hexp2]
  cases hfmt : (pyConvert v conv).format_ (lit "algn") with
  | ok s => rfl
  | error e => rfl

theorem currentLineOf_no_nl (p : List Char) (h : '\n' ∉ p) : currentLineOf p = p := by
  unfold currentLineOf
  have hall : ∀ c ∈ p.reverse, (!(c == '\n')) = true := by
    intro c hc
    simp only [List.mem_reverse] at hc
    simp only [Bool.not_eq_true', beq_eq_false_iff_ne, ne_eq]
    intro hcc
    subst hcc
    exact h hc
  have h1 := takeWhile_append_all (fun c => !(c == '\n')) p.reverse [] hall
  simp only [List.append_nil, List.takeWhile_nil] at h1
  rw [h1, List.reverse_reverse]

theorem currentLineOf_after_nl (q cl : List Char) (h : '\n' ∉ cl) :
    currentLineOf (q ++ '\n' :: cl) = cl := by
  unfold currentLineOf
  have hall : ∀ c ∈ cl.reverse, (!(c == '\n')) = true := by
    intro c hc
    simp only [List.mem_reverse] at hc
    simp only [Bool.not_eq_true', beq_eq_false_iff_ne, ne_eq]
    intro hcc
    subst hcc
    exact h hc
  rw [List.reverse_append, List.reverse_cons, List.append_assoc,
    takeWhile_append_all (fun c => !(c == '\n')) cl.reverse _ hall]
  simp [List.takeWhile_cons]

theorem replaceNL_no_nl (v ind : List Char) (h : '\n' ∉ v) : replaceNL v ind = v := by
  induction v with
  | nil => rfl
  | cons c t ih =>
    have hc : (c == '\n') = false := by
      simp only [beq_eq_false_iff_ne, ne_eq]
      intro hcc
      subst hcc
      exact h (by simp)
    have ih' := ih (fun hm => h (List.mem_cons_of_mem c hm))
    simp [replaceNL, hc, ih']

theorem replaceNL_eq_joinWith (v ind : List Char) :
    replaceNL v ind = joinWith ('\n' :: ind) (splitNL v) := by
  induction v with
  | nil => rfl
  | cons c t ih =>
    obtain ⟨h2, t2, hrest⟩ :=
      List.exists_cons_of_ne_nil (show splitNL t ≠ [] from splitOnChar_ne_nil '\n' t)
    by_cases hc : c = '\n'
    · subst hc
      have h1 : replaceNL ('\n' :: t) ind = '\n' :: ind ++ replaceNL t ind := by
        simp [replaceNL]
      have h3 : splitNL ('\n' :: t) = [] :: splitNL t := by
        simp [splitNL, splitOnChar]
      rw [h1, h3, ih, hrest]
      simp [joinWith]
    · have hc' : (c == '\n') = false := by simpa using hc
      have h1 : replaceNL (c :: t) ind = c :: replaceNL t ind := by
        simp [replaceNL, hc']
      have h3 : splitNL (c :: t) = (c :: h2) :: t2 := by
        simp only [splitNL, splitOnChar, hc', Bool.false_eq_true, if_false]
        rw [show splitOnChar '\n' t = h2 :: t2 from hrest]
      rw [h1, h3, ih, hrest, joinWith_cons_head]

/-- C7: the aligner replaces, in the value, every newline by a newline followed
by the maximal leading whitespace run `W` of the current line of the preceding
text (the segment after the last newline, or the whole text when it has none);
when that run is empty, or the value has no newline, the value is returned
unchanged. -/
theorem align_value_correct (v p q cl W r : List Char)
    (hp : p = q ++ '\n' :: cl ∨ ('\n' ∉ p ∧ p = cl))
    (hcl : '\n' ∉ cl)
    (hW : cl = W ++ r)
    (hWall : W.all pyIsSpace = true)
    (hr : r.takeWhile pyIsSpace = []) :
    (W ≠ [] → align_value v p = joinWith ('\n' :: W) (splitNL v)) ∧
    (W = [] → align_value v p = v) ∧
    ('\n' ∉ v → align_value v p = v) := by
  have hcur : currentLineOf p = cl := by
    rcases hp with hp | ⟨hnp, hpc⟩
    · rw [hp]
      exact currentLineOf_after_nl q cl hcl
    · rw [hpc] at hnp ⊢
      exact currentLineOf_no_nl cl hnp
  have hclW : cl.takeWhile pyIsSpace = W := by
    rw [hW, takeWhile_append_all pyIsSpace W r (fun c hc => List.all_eq_true.mp hWall c hc),
      hr, List.append_nil]
  refine ⟨?_, ?_, ?_⟩
  · intro hWne
    have hne : ¬W.isEmpty := by simpa [List.isEmpty_iff] using hWne
    unfold align_value
    simp only [matchIndented, hcur, hclW, hne, Bool.false_eq_true, if_false]
    exact replaceNL_eq_joinWith v W
  · intro hWnil
    unfold align_value
    simp [matchIndented, hcur, hclW, hWnil]
  · intro hvnl
    unfold align_value
    rcases hmi : matchIndented (currentLineOf p) with _ | ind
    · rfl
    · exact replaceNL_no_nl v ind hvnl

/-- Witness for C7 at `v = "a\nb"`, `p = "X:\n  "`: the current line is
`"  "`, its whitespace run is `"  "`, and alignment inserts it after the
newline of `v`. -/
theorem align_value_correct_witness :
    align_value (lit "a\nb") (lit "X:\n  ") = joinWith ('\n' :: lit "  ") (splitNL (lit "a\nb")) :=
  (align_value_correct (lit "a\nb") (lit "X:\n  ") (lit "X:") (lit "  ") (lit "  ") []
    (Or.inl (by decide)) (by decide) (by decide) (by decide) (by decide)).1 (by decide)

theorem smartStripSub_eq_dropBlankLead (s : List Char) : smartStripSub s = dropBlankLead s := by
  induction s with
  | nil => rfl
  | cons c t ih =>
    by_cases hn : nonNLSpace c
    · have hparts := hn
      simp only [nonNLSpace, Bool.and_eq_true, Bool.not_eq_true'] at hparts
      have h1 : smartStripSub (c :: t) = smartStripSub t := by
        simp only [smartStripSub, List.takeWhile_cons, hn, if_true, List.length_cons,
          List.drop_succ_cons]
      have hd : dropBlankLead (c :: t) = dropBlankLead t := by
        simp [dropBlankLead, hparts.1, hparts.2]
      rw [h1, hd, ih]
    · by_cases hnl : c = '\n'
      · subst hnl
        have h1 : smartStripSub ('\n' :: t) = t := by
          simp [smartStripSub, List.takeWhile_cons, nonNLSpace]
        simp [h1, dropBlankLead]
      · have hws : pyIsSpace c = false := by
          by_contra hcc
          apply hn
          simp only [nonNLSpace, Bool.and_eq_true, Bool.not_eq_true']
          exact ⟨by simpa using hcc, by simpa using hnl⟩
        have hnn : nonNLSpace c = false := by simpa [nonNLSpace] using hn
        have hnl' : (c == '\n') = false := by simpa using hnl
        have h1 : smartStripSub (c :: t) = c :: t := by
          simp [smartStripSub, List.takeWhile_cons, hnn, hnl']
        have hd : dropBlankLead (c :: t) = c :: t := by
          simp [dropBlankLead, hnl', hws]
        rw [h1, hd]

theorem dropWhile_eq_trimLeadWS (s : List Char) : s.dropWhile pyIsSpace = trimLeadWS s := by
  induction s with
  | nil => rfl
  | cons c t ih =>
    by_cases hc : pyIsSpace c <;> simp [List.dropWhile_cons, trimLeadWS, hc, ih]

/-- C8: the boundary stripper behaves as specified for each mode: `smart`
removes one leading blank-or-whitespace-only segment (a run of non-newline
whitespace and at most one following newline) and, via the same pattern on the
reversed string re-reversed, one trailing segment; `all` removes all leading
and trailing whitespace; `none` returns the string unchanged.  Interior blank
lines survive, since only those boundary segments are consumed. -/
theorem strip_modes_correct (s : List Char) (m : Strip) : strip_string s m = stripSpec s m := by
  cases m with
  | smart =>
    simp only [strip_string, stripSpec, smartStripSub_eq_dropBlankLead]
  | all =>
    simp only [strip_string, stripSpec, pyStripAll, dropWhile_eq_trimLeadWS]
  | none => rfl

/-- C9: on any input that is neither a string nor a template, both `dedent`
variants return the type error straight away — no rendering, marker scanning,
reduction or stripping is reachable, the result being the error alone — and
the message of each names the offending runtime type. -/
theorem dedent_type_error_correct (name : List Char) (al : Bool) (st : Strip) :
    dedent314 (DedentInput.other name) al st =
      Except.error (PyError.typeError (typeErrMsg314 name)) ∧
    dedentCompat (DedentInput.other name) st =
      Except.error (PyError.typeError (typeErrMsgCompat name)) ∧
    (∃ pre suf, typeErrMsg314 name = pre ++ name ++ suf) ∧
    (∃ pre suf, typeErrMsgCompat name = pre ++ name ++ suf) := by
  refine ⟨rfl, rfl, ⟨lit "expected str or Template, not '", ['\''], ?_⟩,
    ⟨lit "expected str, not '", ['\''], ?_⟩⟩
  · simp [typeErrMsg314]
  · simp [typeErrMsgCompat]

theorem dropWhile_eq_drop (P : Char → Bool) (s : List Char) :
    s.dropWhile P = s.drop (s.takeWhile P).length := by
  induction s with
  | nil => rfl
  | cons c t ih =>
    by_cases hc : P c <;>
      simp [List.dropWhile_cons, List.takeWhile_cons, hc, ih, List.drop_succ_cons]

theorem smartStripSub_isDrop (s : List Char) : ∃ k, smartStripSub s = s.drop k := by
  have hred : smartStripSub s =
      match s.drop (s.takeWhile nonNLSpace).length with
      | [] => []
      | c :: t => if c == '\n' then t else c :: t := rfl
  rcases hrest : s.drop (s.takeWhile nonNLSpace).length with _ | ⟨c, t⟩
  · refine ⟨(s.takeWhile nonNLSpace).length, ?_⟩
    rw [hred, hrest]
  · by_cases hc : c == '\n'
    · refine ⟨(s.takeWhile nonNLSpace).length + 1, ?_⟩
      have hdd : s.drop ((s.takeWhile nonNLSpace).length + 1) =
          (s.drop (s.takeWhile nonNLSpace).length).drop 1 := by
        rw [List.drop_drop]
      rw [hred, hrest, hdd, hrest]
      simp [hc]
    · refine ⟨(s.takeWhile nonNLSpace).length, ?_⟩
      rw [hred, hrest]
      simp only [hc, Bool.false_eq_true, if_false]

theorem strip_sub_decomp (f : List Char → List Char)
    (hf : ∀ x, ∃ k, f x = x.drop k) (s : List Char) :
    ∃ pre suf, s = pre ++ (f ((f s).reverse)).reverse ++ suf := by
  obtain ⟨k1, hk1⟩ := hf s
  obtain ⟨k2, hk2⟩ := hf ((f s).reverse)
  refine ⟨s.take k1, (((f s).reverse).take k2).reverse, ?_⟩
  calc s = s.take k1 ++ s.drop k1 := (List.take_append_drop k1 s).symm
    _ = s.take k1 ++ f s := by rw [hk1]
    _ = s.take k1 ++ ((f s).reverse).reverse := by rw [List.reverse_reverse]
    _ = s.take k1 ++ (((f s).reverse).take k2 ++ ((f s).reverse).drop k2).reverse := by
        rw [List.take_append_drop]
    _ = s.take k1 ++ ((((f s).reverse).drop k2).reverse ++ (((f s).reverse).take k2).reverse) := by
        rw [List.reverse_append]
    _ = s.take k1 ++ ((f ((f s).reverse)).reverse ++ (((f s).reverse).take k2).reverse) := by
        rw [hk2]
    _ = s.take k1 ++ (f ((f s).reverse)).reverse ++ (((f s).reverse).take k2).reverse := by
        rw [List.append_assoc]

/-- C10: for every string and every strip mode, the boundary stripper's result
is a contiguous substring: the input splits as a prefix, the result, and a
suffix, so no interior character is altered or removed. -/
theorem strip_substring_invariant (s : List Char) (m : Strip) :
    ∃ pre suf, s = pre ++ strip_string s m ++ suf := by
  cases m with
  | smart => exact strip_sub_decomp smartStripSub smartStripSub_isDrop s
  | all =>
    have h := strip_sub_decomp (fun x => x.dropWhile pyIsSpace)
      (fun x => ⟨(x.takeWhile pyIsSpace).length, dropWhile_eq_drop pyIsSpace x⟩) s
    simpa [strip_string, pyStripAll] using h
  | none => exact ⟨[], [], by simp [strip_string]⟩
